import Mathlib

/-!
Shallow embedding of `src/main.rs` of `kozity/rust-lsystems`.

The program holds an L-system (`LindenmeyerSystem`) as two `HashMap`s
(symbol→replacement string, symbol→action), an axiom string and an angle
delta.  `main` expands the axiom for a number of generations by replacing
every character by its rule, then walks the resulting string with a turtle
whose position is an `(isize, isize)` pair, emitting SVG path data
(`move_to` / `line_by`).  `get_vector` computes the forward displacement by
casting `length * cos/sin(angle)` from `f32` to `isize` (truncation toward
zero).

Embedding choices:
* Rust `String` ↦ `List Char`; `HashMap` ↦ association list with
  `List.lookup` (the presets insert distinct keys, so the semantics agree);
* `f32` ↦ `ℝ` (ideal-real model of the float arithmetic); the `as isize`
  cast ↦ `truncTowardZero`;
* the `HashMap` index panics (missing rule / missing action) and the
  `expect("malformed system")` panic on popping an empty stack ↦ `Except`
  errors.
-/

namespace LSys

/-- The drawing actions, as in the Rust `enum Action`. -/
inductive Action where
  | DecrementAngle
  | Forward
  | IncrementAngle
  | None
  | Pop
  | Push
deriving DecidableEq, Repr

/-- The three built-in presets, as in `enum LindenmeyerSystemPreset`. -/
inductive LindenmeyerSystemPreset where
  | HeighwayDragon
  | Plant
  | Tree
deriving DecidableEq, Repr

/-- Mirror of `struct LindenmeyerSystem` (its first string field is spelled
`axiomStr` here, its Rust name being a Lean keyword). -/
structure LindenmeyerSystem where
  actions : List (Char × Action)
  angle_delta : ℝ
  axiomStr : List Char
  rules : List (Char × List Char)

/-- Mirror of `LindenmeyerSystem::recommended_generations`. -/
def recommended_generations : LindenmeyerSystemPreset → Nat
  | .HeighwayDragon => 16
  | .Plant => 6
  | .Tree => 7

/-- Action table inserted for the Heighway dragon preset. -/
def dragonActions : List (Char × Action) :=
  [('F', .Forward), ('G', .Forward), ('+', .IncrementAngle), ('-', .DecrementAngle)]

/-- Rule table inserted for the Heighway dragon preset. -/
def dragonRules : List (Char × List Char) :=
  [('F', ['F', '+', 'G']), ('G', ['F', '-', 'G']), ('+', ['+']), ('-', ['-'])]

/-- Action table inserted for the plant preset. -/
def plantActions : List (Char × Action) :=
  [('X', .None), ('F', .Forward), ('+', .IncrementAngle), ('-', .DecrementAngle),
   ('[', .Push), (']', .Pop)]

/-- Rule table inserted for the plant preset. -/
def plantRules : List (Char × List Char) :=
  [('X', ['F', '+', '[', '[', 'X', ']', '-', 'X', ']', '-', 'F', '[', '-', 'F', 'X', ']', '+', 'X']),
   ('F', ['F', 'F']), ('+', ['+']), ('-', ['-']), ('[', ['[']), (']', [']'])]

/-- Action table inserted for the tree preset. -/
def treeActions : List (Char × Action) :=
  [('0', .Forward), ('1', .Forward), ('l', .IncrementAngle), ('r', .DecrementAngle),
   ('[', .Push), (']', .Pop)]

/-- Rule table inserted for the tree preset. -/
def treeRules : List (Char × List Char) :=
  [('0', ['1', '[', 'l', '0', ']', 'r', '0']), ('1', ['1', '1']),
   ('l', ['l']), ('r', ['r']), ('[', ['[']), (']', [']'])]

/-- Mirror of `LindenmeyerSystem::from_preset`. -/
noncomputable def from_preset : LindenmeyerSystemPreset → LindenmeyerSystem
  | .HeighwayDragon =>
      { actions := dragonActions
        angle_delta := Real.pi / 2
        axiomStr := ['F']
        rules := dragonRules }
  | .Plant =>
      { actions := plantActions
        angle_delta := 5 * Real.pi / 36
        axiomStr := ['X']
        rules := plantRules }
  | .Tree =>
      { actions := treeActions
        angle_delta := Real.pi / 6
        axiomStr := ['0']
        rules := treeRules }

/-- One pass of the inner rewrite loop of `main`: replace every character by
its rule, concatenating in order.  A character missing from the rule map is
the `system.rules[&c]` panic, modelled as `Except.error c`. -/
def rewriteOnce (rules : List (Char × List Char)) : List Char → Except Char (List Char)
  | [] => .ok []
  | c :: cs =>
      match rules.lookup c with
      | none => .error c
      | some r =>
          match rewriteOnce rules cs with
          | .error e => .error e
          | .ok rest => .ok (r ++ rest)

/-- The outer rewrite loop of `main` (`for _ in 0..generations`): apply
`rewriteOnce` `n` times to the current string. -/
def expand (rules : List (Char × List Char)) (s : List Char) : Nat → Except Char (List Char)
  | 0 => .ok s
  | n + 1 =>
      match rewriteOnce rules s with
      | .error e => .error e
      | .ok t => expand rules t n

/-- Rust's `as isize` cast on a (finite) float value: truncation toward
zero. -/
noncomputable def truncTowardZero (x : ℝ) : ℤ :=
  if 0 ≤ x then ⌊x⌋ else ⌈x⌉

/-- Mirror of `fn get_vector(angle: f32, length: isize) -> (isize, isize)`. -/
noncomputable def get_vector (angle : ℝ) (length : ℤ) : ℤ × ℤ :=
  (truncTowardZero ((length : ℝ) * Real.cos angle),
   truncTowardZero ((length : ℝ) * Real.sin angle))

/-- One element of the accumulated SVG path data: `move_to` takes an
absolute position, `line_by` a relative displacement. -/
inductive PathCmd where
  | moveTo : ℤ × ℤ → PathCmd
  | lineBy : ℤ × ℤ → PathCmd
deriving DecidableEq, Repr

/-- The mutable state of the interpretation loop in `main`: `angle`,
`position`, the accumulated path `data`, and the save `stack`. -/
structure TurtleState where
  angle : ℝ
  position : ℤ × ℤ
  path : List PathCmd
  stack : List ((ℤ × ℤ) × ℝ)

/-- The two panics of the interpretation loop: a missing action map entry
(`system.actions[&c]`) and `stack.pop().expect("malformed system")`. -/
inductive InterpError where
  | stackUnderflow
  | missingAction : Char → InterpError
deriving DecidableEq, Repr

/-- One iteration of the interpretation loop of `main` on character `c`. -/
noncomputable def interpStep (actions : List (Char × Action)) (angle_delta : ℝ)
    (st : TurtleState) (c : Char) : Except InterpError TurtleState :=
  match actions.lookup c with
  | Option.none => .error (.missingAction c)
  | some Action.DecrementAngle => .ok { st with angle := st.angle - angle_delta }
  | some Action.Forward =>
      let v := get_vector st.angle 10
      .ok { st with
              position := (st.position.1 + v.1, st.position.2 + v.2)
              path := st.path ++ [PathCmd.lineBy v] }
  | some Action.IncrementAngle => .ok { st with angle := st.angle + angle_delta }
  | some Action.None => .ok st
  | some Action.Pop =>
      match st.stack with
      | [] => .error .stackUnderflow
      | (p, a) :: rest =>
          .ok { st with
                  angle := a
                  position := p
                  path := st.path ++ [PathCmd.moveTo p]
                  stack := rest }
  | some Action.Push => .ok { st with stack := (st.position, st.angle) :: st.stack }

/-- The interpretation loop of `main`: fold `interpStep` over the string,
stopping at the first panic. -/
noncomputable def interpret (actions : List (Char × Action)) (angle_delta : ℝ)
    (st : TurtleState) : List Char → Except InterpError TurtleState
  | [] => .ok st
  | c :: cs =>
      match interpStep actions angle_delta st c with
      | .error e => .error e
      | .ok st' => interpret actions angle_delta st' cs

/-- The initial interpreter state of `main`: `angle = 0.0`,
`position = (0, 0)`, `data = Data::new().move_to((0, 0))`, empty stack. -/
noncomputable def initState : TurtleState :=
  { angle := 0
    position := (0, 0)
    path := [PathCmd.moveTo (0, 0)]
    stack := [] }

/-- Number of characters of `cs` mapped to `Pop` by the action table. -/
def countPops (actions : List (Char × Action)) (cs : List Char) : Nat :=
  cs.countP fun c => actions.lookup c == some Action.Pop

/-- Number of characters of `cs` mapped to `Push` by the action table. -/
def countPushes (actions : List (Char × Action)) (cs : List Char) : Nat :=
  cs.countP fun c => actions.lookup c == some Action.Push

/-- Looking a key up in an association list returns one of its entries. -/
theorem mem_of_lookup_ok {α β : Type} [BEq α] [LawfulBEq α] :
    ∀ {l : List (α × β)} {c : α} {r : β}, l.lookup c = some r → (c, r) ∈ l := by
  intro l
  induction l with
  | nil => intro c r h; simp [List.lookup] at h
  | cons p es ih =>
      intro c r h
      rw [List.lookup] at h
      rcases hb : c == p.1 with _ | _
      · rw [hb] at h
        exact List.mem_cons_of_mem _ (ih h)
      · rw [hb] at h
        have hc : c = p.1 := by simpa using hb
        have hr : p.2 = r := by simpa using h
        subst hc
        rw [← hr]
        exact List.mem_cons_self _ _

/-- If every character of the input lies in `keys`, and every key has a rule
whose replacement stays inside `keys`, then one rewrite pass succeeds and
its output again lies in `keys`. -/
theorem rewriteOnce_ok_of_keys (rules : List (Char × List Char)) (keys : List Char)
    (hclosed : ∀ c ∈ keys, (rules.lookup c).isSome ∧ ∀ d ∈ (rules.lookup c).getD [], d ∈ keys) :
    ∀ s : List Char, (∀ c ∈ s, c ∈ keys) →
      ∃ t, rewriteOnce rules s = .ok t ∧ ∀ c ∈ t, c ∈ keys := by
  intro s
  induction s with
  | nil => intro _; exact ⟨[], rfl, by simp⟩
  | cons c cs ih =>
      intro hs
      have hck : c ∈ keys := hs c (List.mem_cons_self _ _)
      obtain ⟨hsome, hsub⟩ := hclosed c hck
      obtain ⟨r, hr⟩ := Option.isSome_iff_exists.mp hsome
      obtain ⟨t, ht, htk⟩ := ih fun d hd => hs d (List.mem_cons_of_mem _ hd)
      refine ⟨r ++ t, ?_, ?_⟩
      · rw [rewriteOnce, hr, ht]
      · intro d hd
        rcases List.mem_append.mp hd with h | h
        · refine hsub d ?_
          rw [hr]
          exact h
        · exact htk d h

/-- Unfolding lemma for one iteration of the outer rewrite loop. -/
theorem expand_succ (rules : List (Char × List Char)) (s : List Char) (n : Nat) :
    expand rules s (n + 1) =
      match rewriteOnce rules s with
      | .error e => .error e
      | .ok t => expand rules t n := rfl

/-- The loop `expand` preserves membership of every character in a closed
key set and never fails on such input. -/
theorem expand_ok_of_keys (rules : List (Char × List Char)) (keys : List Char)
    (hclosed : ∀ c ∈ keys, (rules.lookup c).isSome ∧ ∀ d ∈ (rules.lookup c).getD [], d ∈ keys) :
    ∀ (n : Nat) (s : List Char), (∀ c ∈ s, c ∈ keys) →
      ∃ t, expand rules s n = .ok t ∧ ∀ c ∈ t, c ∈ keys := by
  intro n
  induction n with
  | zero => intro s hs; exact ⟨s, rfl, hs⟩
  | succ n ih =>
      intro s hs
      obtain ⟨u, hu, huk⟩ := rewriteOnce_ok_of_keys rules keys hclosed s hs
      obtain ⟨t, ht, htk⟩ := ih u huk
      refine ⟨t, ?_, htk⟩
      rw [expand_succ, hu]
      exact ht

/-- One rewrite pass never shrinks the string when every rule's replacement
has length at least 1. -/
theorem rewriteOnce_length_le (rules : List (Char × List Char))
    (hlen : ∀ p ∈ rules, 1 ≤ p.2.length) :
    ∀ s t : List Char, rewriteOnce rules s = .ok t → s.length ≤ t.length := by
  intro s
  induction s with
  | nil => intro t h; cases h; simp
  | cons c cs ih =>
      intro t h
      rw [rewriteOnce] at h
      rcases hr : rules.lookup c with _ | r
      · rw [hr] at h; cases h
      · rw [hr] at h
        rcases hrest : rewriteOnce rules cs with e | rest
        · rw [hrest] at h; cases h
        · rw [hrest] at h
          cases h
          have h1 : 1 ≤ r.length := hlen (c, r) (mem_of_lookup_ok hr)
          have h2 : cs.length ≤ rest.length := ih rest hrest
          simp only [List.length_cons, List.length_append]
          omega

/-- Running one more generation is the same as running the generations
first and one rewrite pass afterwards. -/
theorem expand_succ_last (rules : List (Char × List Char)) :
    ∀ (n : Nat) (s : List Char),
      expand rules s (n + 1) =
        match expand rules s n with
        | .error e => .error e
        | .ok t => rewriteOnce rules t := by
  intro n
  induction n with
  | zero =>
      intro s
      rw [expand_succ]
      cases h : rewriteOnce rules s <;> exact h.symm
  | succ n ih =>
      intro s
      rw [expand_succ rules s (n + 1)]
      cases h : rewriteOnce rules s with
      | error e =>
          rw [expand_succ, h]
      | ok t =>
          rw [expand_succ rules s n, h]
          exact ih t

/-- Unfolding lemma for one iteration of the interpretation loop. -/
theorem interpret_cons (actions : List (Char × Action)) (angle_delta : ℝ) (st : TurtleState)
    (c : Char) (cs : List Char) :
    interpret actions angle_delta st (c :: cs) =
      match interpStep actions angle_delta st c with
      | .error e => .error e
      | .ok st' => interpret actions angle_delta st' cs := rfl

/-- The interpretation loop processes a concatenation left part first; an
error in the left part is the result of the whole walk. -/
theorem interpret_append (actions : List (Char × Action)) (angle_delta : ℝ) :
    ∀ (l₁ l₂ : List Char) (st : TurtleState),
      interpret actions angle_delta st (l₁ ++ l₂) =
        match interpret actions angle_delta st l₁ with
        | .error e => .error e
        | .ok t => interpret actions angle_delta t l₂ := by
  intro l₁
  induction l₁ with
  | nil => intro l₂ st; rfl
  | cons c cs ih =>
      intro l₂ st
      rw [List.cons_append]
      simp only [interpret_cons]
      cases h : interpStep actions angle_delta st c with
      | error e => rfl
      | ok st' => exact ih l₂ st'

/-- Contribution of one character to the `Pop` count. -/
theorem countPops_cons (actions : List (Char × Action)) (c : Char) (cs : List Char) :
    countPops actions (c :: cs) =
      countPops actions cs + (if actions.lookup c = some Action.Pop then 1 else 0) := by
  simp [countPops, List.countP_cons]

/-- Contribution of one character to the `Push` count. -/
theorem countPushes_cons (actions : List (Char × Action)) (c : Char) (cs : List Char) :
    countPushes actions (c :: cs) =
      countPushes actions cs + (if actions.lookup c = some Action.Push then 1 else 0) := by
  simp [countPushes, List.countP_cons]

/-- Pop counts add over concatenation. -/
theorem countPops_append (actions : List (Char × Action)) (l₁ l₂ : List Char) :
    countPops actions (l₁ ++ l₂) = countPops actions l₁ + countPops actions l₂ := by
  simp [countPops, List.countP_append]

/-- Push counts add over concatenation. -/
theorem countPushes_append (actions : List (Char × Action)) (l₁ l₂ : List Char) :
    countPushes actions (l₁ ++ l₂) = countPushes actions l₁ + countPushes actions l₂ := by
  simp [countPushes, List.countP_append]

/-- At heading 0 the forward displacement is exactly `(10, 0)`. -/
theorem get_vector_zero : get_vector 0 10 = (10, 0) := by
  unfold get_vector truncTowardZero
  rw [Real.cos_zero, Real.sin_zero]
  norm_num

/-- If at every prefix the number of `Pop`s does not exceed the number of
`Push`es plus the initial stack depth, and every character has an action,
the walk succeeds and the final stack depth is determined by the counts. -/
theorem interpret_ok_of_balanced (actions : List (Char × Action)) (angle_delta : ℝ) :
    ∀ (cs : List Char) (st : TurtleState),
      (∀ c ∈ cs, (actions.lookup c).isSome) →
      (∀ i ≤ cs.length,
        countPops actions (cs.take i) ≤ countPushes actions (cs.take i) + st.stack.length) →
      ∃ t, interpret actions angle_delta st cs = .ok t ∧
        t.stack.length + countPops actions cs = st.stack.length + countPushes actions cs := by
  intro cs
  induction cs with
  | nil =>
      intro st _ _
      exact ⟨st, rfl, by simp [countPops, countPushes]⟩
  | cons c cs ih =>
      intro st hsome hbal
      obtain ⟨a, ha⟩ := Option.isSome_iff_exists.mp (hsome c (List.mem_cons_self _ _))
      have hsome' : ∀ d ∈ cs, (actions.lookup d).isSome :=
        fun d hd => hsome d (List.mem_cons_of_mem _ hd)
      have hbal1 : ∀ i ≤ cs.length,
          countPops actions (c :: cs.take i) ≤
            countPushes actions (c :: cs.take i) + st.stack.length := by
        intro i hi
        have := hbal (i + 1) (by simpa using Nat.succ_le_succ hi)
        simpa [List.take_succ_cons] using this
      cases a with
      | DecrementAngle =>
          have hstep : interpStep actions angle_delta st c =
              .ok { st with angle := st.angle - angle_delta } := by
            simp only [interpStep, ha]
          obtain ⟨t, ht, hcount⟩ := ih { st with angle := st.angle - angle_delta } hsome'
            (fun i hi => by
              have := hbal1 i hi
              simp only [countPops_cons, countPushes_cons, ha] at this
              simpa using this)
          refine ⟨t, ?_, ?_⟩
          · rw [interpret_cons, hstep]; exact ht
          · simp only [countPops_cons, countPushes_cons, ha] at hcount ⊢
            simp only [show (some Action.DecrementAngle = some Action.Pop) = False by simp,
              show (some Action.DecrementAngle = some Action.Push) = False by simp] at hcount ⊢
            simp at hcount ⊢
            omega
      | Forward =>
          have hstep : interpStep actions angle_delta st c =
              .ok { st with
                      position := (st.position.1 + (get_vector st.angle 10).1,
                                   st.position.2 + (get_vector st.angle 10).2)
                      path := st.path ++ [PathCmd.lineBy (get_vector st.angle 10)] } := by
            simp only [interpStep, ha]
          obtain ⟨t, ht, hcount⟩ := ih { st with
              position := (st.position.1 + (get_vector st.angle 10).1,
                           st.position.2 + (get_vector st.angle 10).2)
              path := st.path ++ [PathCmd.lineBy (get_vector st.angle 10)] } hsome'
            (fun i hi => by
              have := hbal1 i hi
              simp only [countPops_cons, countPushes_cons, ha] at this
              simpa using this)
          refine ⟨t, ?_, ?_⟩
          · rw [interpret_cons, hstep]; exact ht
          · simp only [countPops_cons, countPushes_cons, ha] at hcount ⊢
            simp at hcount ⊢
            omega
      | IncrementAngle =>
          have hstep : interpStep actions angle_delta st c =
              .ok { st with angle := st.angle + angle_delta } := by
            simp only [interpStep, ha]
          obtain ⟨t, ht, hcount⟩ := ih { st with angle := st.angle + angle_delta } hsome'
            (fun i hi => by
              have := hbal1 i hi
              simp only [countPops_cons, countPushes_cons, ha] at this
              simpa using this)
          refine ⟨t, ?_, ?_⟩
          · rw [interpret_cons, hstep]; exact ht
          · simp only [countPops_cons, countPushes_cons, ha] at hcount ⊢
            simp at hcount ⊢
            omega
      | None =>
          have hstep : interpStep actions angle_delta st c = .ok st := by
            simp only [interpStep, ha]
          obtain ⟨t, ht, hcount⟩ := ih st hsome'
            (fun i hi => by
              have := hbal1 i hi
              simp only [countPops_cons, countPushes_cons, ha] at this
              simpa using this)
          refine ⟨t, ?_, ?_⟩
          · rw [interpret_cons, hstep]; exact ht
          · simp only [countPops_cons, countPushes_cons, ha] at hcount ⊢
            simp at hcount ⊢
            omega
      | Pop =>
          have h1 := hbal1 0 (Nat.zero_le _)
          simp only [List.take_zero, countPops_cons, countPushes_cons, ha] at h1
          simp [countPops, countPushes] at h1
          obtain ⟨p, a', rest, hx⟩ : ∃ p a' rest, st.stack = (p, a') :: rest := by
            cases hs : st.stack with
            | nil => rw [hs] at h1; simp at h1
            | cons x rest =>
                rcases x with ⟨p, a'⟩
                exact ⟨p, a', rest, rfl⟩
          have hstep : interpStep actions angle_delta st c =
              .ok { st with
                      angle := a'
                      position := p
                      path := st.path ++ [PathCmd.moveTo p]
                      stack := rest } := by
            simp only [interpStep, ha, hx]
          have hlen : st.stack.length = rest.length + 1 := by rw [hx]; rfl
          obtain ⟨t, ht, hcount⟩ := ih { st with
              angle := a'
              position := p
              path := st.path ++ [PathCmd.moveTo p]
              stack := rest } hsome'
            (fun i hi => by
              have := hbal1 i hi
              simp only [countPops_cons, countPushes_cons, ha] at this
              simp at this ⊢
              omega)
          refine ⟨t, ?_, ?_⟩
          · rw [interpret_cons, hstep]; exact ht
          · simp only [countPops_cons, countPushes_cons, ha] at hcount ⊢
            simp at hcount ⊢
            omega
      | Push =>
          have hstep : interpStep actions angle_delta st c =
              .ok { st with stack := (st.position, st.angle) :: st.stack } := by
            simp only [interpStep, ha]
          obtain ⟨t, ht, hcount⟩ := ih { st with stack := (st.position, st.angle) :: st.stack }
            hsome'
            (fun i hi => by
              have := hbal1 i hi
              simp only [countPops_cons, countPushes_cons, ha] at this
              simp at this ⊢
              omega)
          refine ⟨t, ?_, ?_⟩
          · rw [interpret_cons, hstep]; exact ht
          · simp only [countPops_cons, countPushes_cons, ha] at hcount ⊢
            simp at hcount ⊢
            omega

/-- C4: the rewrite loop with generation count 0 returns the axiom
unchanged, for every rule table and every starting string. -/
theorem expand_zero_identity (rules : List (Char × List Char)) (s : List Char) :
    expand rules s 0 = .ok s := rfl

/-- C3: for the Heighway dragon grammar, one generation yields `"F+G"` and
two generations yield `"F+G+F-G"`. -/
theorem dragon_expand_one_two :
    expand (from_preset .HeighwayDragon).rules (from_preset .HeighwayDragon).axiomStr 1 =
      .ok ['F', '+', 'G'] ∧
    expand (from_preset .HeighwayDragon).rules (from_preset .HeighwayDragon).axiomStr 2 =
      .ok ['F', '+', 'G', '+', 'F', '-', 'G'] := by
  constructor <;> rfl

/-- C1: if no prefix of the walk has more `Pop` than `Push` actions, the
interpretation never aborts with a stack underflow (it runs to completion);
and if some prefix does, say the first violation happens at the symbol at
index `k`, then the walk up to (excluding) that symbol succeeds while
including it — and hence the whole walk — aborts with the
stack-underflow (`"malformed system"`) failure: the abort happens exactly
at the first offending symbol, not later. -/
theorem interpret_underflow_first_violation (actions : List (Char × Action))
    (angle_delta : ℝ) (cs : List Char) (k : Nat)
    (hsome : ∀ c ∈ cs, (actions.lookup c).isSome) :
    ((∀ i ≤ cs.length, countPops actions (cs.take i) ≤ countPushes actions (cs.take i)) →
      ∃ t, interpret actions angle_delta initState cs = .ok t) ∧
    (k < cs.length →
      (∀ i ≤ k, countPops actions (cs.take i) ≤ countPushes actions (cs.take i)) →
      countPushes actions (cs.take (k + 1)) < countPops actions (cs.take (k + 1)) →
      (∃ t, interpret actions angle_delta initState (cs.take k) = .ok t) ∧
      interpret actions angle_delta initState (cs.take (k + 1)) = .error .stackUnderflow ∧
      interpret actions angle_delta initState cs = .error .stackUnderflow) := by
  constructor
  · intro hbal
    obtain ⟨t, ht, _⟩ := interpret_ok_of_balanced actions angle_delta cs initState hsome
      (fun i hi => by simpa [initState] using hbal i hi)
    exact ⟨t, ht⟩
  · intro hk hbal hviol
    have htake : cs.take (k + 1) = cs.take k ++ [cs[k]] := by
      rw [List.take_succ]
      simp [List.getElem?_eq_getElem hk]
    have hP1 : countPops actions [cs[k]] =
        if actions.lookup cs[k] = some Action.Pop then 1 else 0 := by
      rw [countPops_cons]
      simp [countPops]
    have hB1 : countPushes actions [cs[k]] =
        if actions.lookup cs[k] = some Action.Push then 1 else 0 := by
      rw [countPushes_cons]
      simp [countPushes]
    have hbk := hbal k le_rfl
    rw [htake, countPops_append, countPushes_append, hP1, hB1] at hviol
    have hpop : actions.lookup cs[k] = some Action.Pop := by
      by_cases hpop : actions.lookup cs[k] = some Action.Pop
      · exact hpop
      · rw [if_neg hpop] at hviol
        omega
    have heq : countPops actions (cs.take k) = countPushes actions (cs.take k) := by
      rw [if_pos hpop] at hviol
      omega
    have hsome_tk : ∀ c ∈ cs.take k, (actions.lookup c).isSome :=
      fun c hc => hsome c (List.take_subset k cs hc)
    obtain ⟨t, ht, hcnt⟩ := interpret_ok_of_balanced actions angle_delta (cs.take k)
      initState hsome_tk
      (fun i hi => by
        have hik : i ≤ k := by
          rw [List.length_take] at hi
          exact le_trans hi (min_le_left _ _)
        have := hbal i hik
        simpa [initState, List.take_take, min_eq_left hik] using this)
    have hstacknil : t.stack = [] := by
      rw [heq] at hcnt
      have h0 : initState.stack.length = 0 := rfl
      rw [h0] at hcnt
      exact List.length_eq_zero.mp (by omega)
    have h2 : interpret actions angle_delta initState (cs.take (k + 1)) =
        .error .stackUnderflow := by
      rw [htake, interpret_append, ht]
      show interpret actions angle_delta t [cs[k]] = .error .stackUnderflow
      rw [interpret_cons,
        show interpStep actions angle_delta t cs[k] = .error .stackUnderflow from by
          simp only [interpStep, hpop, hstacknil]]
    have h3 : interpret actions angle_delta initState cs = .error .stackUnderflow := by
      rw [← List.take_append_drop (k + 1) cs, interpret_append, h2]
    exact ⟨⟨t, ht⟩, h2, h3⟩

/-- Witness for C1: with `'['` mapped to `Push` and `']'` to `Pop`, the
string `"[]]"` first violates the balance at index 2, and the walk aborts
there with a stack underflow. -/
theorem interpret_underflow_first_violation_witness :
    (∀ c ∈ (['[', ']', ']'] : List Char), ((plantActions.lookup c).isSome : Prop)) ∧
    ((2 : Nat) < 3 →
      (∀ i ≤ 2, countPops plantActions ((['[', ']', ']'] : List Char).take i) ≤
        countPushes plantActions ((['[', ']', ']'] : List Char).take i)) →
      countPushes plantActions ((['[', ']', ']'] : List Char).take 3) <
        countPops plantActions ((['[', ']', ']'] : List Char).take 3) →
      (∃ t, interpret plantActions 0 initState ((['[', ']', ']'] : List Char).take 2) = .ok t) ∧
      interpret plantActions 0 initState ((['[', ']', ']'] : List Char).take 3) =
        .error .stackUnderflow ∧
      interpret plantActions 0 initState ['[', ']', ']'] = .error .stackUnderflow) :=
  ⟨by decide,
   (interpret_underflow_first_violation plantActions 0 ['[', ']', ']'] 2 (by decide)).2⟩

/-- C2: for each built-in preset, every symbol reachable from the axiom by
repeated rule application has an entry in both the rule map and the action
map, so for any generation count the rewrite loop succeeds and every
character of its output has an action — the incomplete-grammar panics are
unreachable. -/
theorem preset_reachable_symbols_have_rules_and_actions
    (p : LindenmeyerSystemPreset) (n : Nat) :
    ∃ t, expand (from_preset p).rules (from_preset p).axiomStr n = .ok t ∧
      ∀ c ∈ t, (((from_preset p).rules.lookup c).isSome ∧
        ((from_preset p).actions.lookup c).isSome) := by
  cases p with
  | HeighwayDragon =>
      obtain ⟨t, ht, htk⟩ :=
        expand_ok_of_keys dragonRules ['F', 'G', '+', '-'] (by decide) n ['F'] (by decide)
      exact ⟨t, ht, fun c hc =>
        (show ∀ c ∈ ['F', 'G', '+', '-'],
            ((dragonRules.lookup c).isSome ∧ (dragonActions.lookup c).isSome) by decide)
          c (htk c hc)⟩
  | Plant =>
      obtain ⟨t, ht, htk⟩ :=
        expand_ok_of_keys plantRules ['X', 'F', '+', '-', '[', ']'] (by decide) n ['X'] (by decide)
      exact ⟨t, ht, fun c hc =>
        (show ∀ c ∈ ['X', 'F', '+', '-', '[', ']'],
            ((plantRules.lookup c).isSome ∧ (plantActions.lookup c).isSome) by decide)
          c (htk c hc)⟩
  | Tree =>
      obtain ⟨t, ht, htk⟩ :=
        expand_ok_of_keys treeRules ['0', '1', 'l', 'r', '[', ']'] (by decide) n ['0'] (by decide)
      exact ⟨t, ht, fun c hc =>
        (show ∀ c ∈ ['0', '1', 'l', 'r', '[', ']'],
            ((treeRules.lookup c).isSome ∧ (treeActions.lookup c).isSome) by decide)
          c (htk c hc)⟩

/-- C7: when every rule's replacement string has length at least 1, the
string length after `k + 1` generations is at least the length after `k`
generations. -/
theorem expand_length_monotone (rules : List (Char × List Char)) (s : List Char) (k : Nat)
    (hlen : ∀ p ∈ rules, 1 ≤ p.2.length) (u v : List Char)
    (hu : expand rules s k = .ok u) (hv : expand rules s (k + 1) = .ok v) :
    u.length ≤ v.length := by
  rw [expand_succ_last rules k s, hu] at hv
  exact rewriteOnce_length_le rules hlen u v hv

/-- Witness for C7 at the Heighway dragon rules, `k = 0`. -/
theorem expand_length_monotone_witness :
    (∀ p ∈ dragonRules, 1 ≤ p.2.length) ∧
    (['F'] : List Char).length ≤ (['F', '+', 'G'] : List Char).length :=
  ⟨by decide,
   expand_length_monotone dragonRules ['F'] 0 (by decide) ['F'] ['F', '+', 'G'] rfl rfl⟩

/-- C8: the rewriter and the interpreter are deterministic — identical
inputs yield identical results.  Both are pure Lean functions of their
arguments (the embedding has no state beyond the explicit one), so equality
of the two runs is definitional. -/
theorem expand_interpret_deterministic (rules : List (Char × List Char)) (s : List Char)
    (n : Nat) (actions : List (Char × Action)) (angle_delta : ℝ) (st : TurtleState)
    (cs : List Char) :
    expand rules s n = expand rules s n ∧
    interpret actions angle_delta st cs = interpret actions angle_delta st cs :=
  ⟨rfl, rfl⟩

/-- C9: a `Push` action leaves position, heading and emitted path unchanged
and only prepends the current `(position, angle)` pair to the stack, while
`IncrementAngle`/`DecrementAngle` leave position, stack and path unchanged
and only add `angle_delta` to, or subtract it from, the heading.  The
record-update form of each right-hand side states exactly which fields
change. -/
theorem interpStep_frame_push_inc_dec (actions : List (Char × Action)) (angle_delta : ℝ)
    (st : TurtleState) (c : Char) :
    (actions.lookup c = some Action.Push →
      interpStep actions angle_delta st c =
        .ok { st with stack := (st.position, st.angle) :: st.stack }) ∧
    (actions.lookup c = some Action.IncrementAngle →
      interpStep actions angle_delta st c = .ok { st with angle := st.angle + angle_delta }) ∧
    (actions.lookup c = some Action.DecrementAngle →
      interpStep actions angle_delta st c = .ok { st with angle := st.angle - angle_delta }) := by
  refine ⟨fun h => ?_, fun h => ?_, fun h => ?_⟩ <;> simp only [interpStep, h]

/-- Witness for C9 at the plant preset's action table and the initial
state. -/
theorem interpStep_frame_push_inc_dec_witness :
    (plantActions.lookup '[' = some Action.Push) ∧
    (plantActions.lookup '+' = some Action.IncrementAngle) ∧
    (plantActions.lookup '-' = some Action.DecrementAngle) ∧
    interpStep plantActions 1 initState '[' =
      .ok { initState with stack := (initState.position, initState.angle) :: initState.stack } ∧
    interpStep plantActions 1 initState '+' =
      .ok { initState with angle := initState.angle + 1 } ∧
    interpStep plantActions 1 initState '-' =
      .ok { initState with angle := initState.angle - 1 } :=
  ⟨by decide, by decide, by decide,
   (interpStep_frame_push_inc_dec plantActions 1 initState '[').1 (by decide),
   (interpStep_frame_push_inc_dec plantActions 1 initState '+').2.1 (by decide),
   (interpStep_frame_push_inc_dec plantActions 1 initState '-').2.2 (by decide)⟩

/-- C10: a `Forward` action uses the fixed step length 10: the displacement
is `get_vector angle 10`, whose components are `10·cos`/`10·sin` of the
heading truncated toward zero to integers; the truncated integer vector is
both added to the (integer-valued) position and emitted as the relative
line segment, and truncation toward zero never increases the magnitude of
a coordinate. -/
theorem interpStep_forward_fixed_step (actions : List (Char × Action)) (angle_delta : ℝ)
    (st : TurtleState) (c : Char) (h : actions.lookup c = some Action.Forward) :
    interpStep actions angle_delta st c =
      .ok { st with
              position := (st.position.1 + (get_vector st.angle 10).1,
                           st.position.2 + (get_vector st.angle 10).2)
              path := st.path ++ [PathCmd.lineBy (get_vector st.angle 10)] } ∧
    get_vector st.angle 10 =
      (truncTowardZero (10 * Real.cos st.angle), truncTowardZero (10 * Real.sin st.angle)) ∧
    ∀ x : ℝ, |(truncTowardZero x : ℝ)| ≤ |x| := by
  refine ⟨by simp only [interpStep, h], ?_, ?_⟩
  · unfold get_vector
    norm_num
  · intro x
    unfold truncTowardZero
    rcases le_or_lt 0 x with hx | hx
    · rw [if_pos hx, abs_of_nonneg hx,
        abs_of_nonneg (by exact_mod_cast Int.floor_nonneg.mpr hx)]
      exact Int.floor_le x
    · have hc : (⌈x⌉ : ℝ) ≤ 0 := by
        exact_mod_cast Int.ceil_le.mpr (by exact_mod_cast hx.le)
      rw [if_neg (not_le.mpr hx), abs_of_neg hx, abs_of_nonpos hc]
      exact neg_le_neg (Int.le_ceil x)

/-- Witness for C10 at the Heighway dragon action table, the symbol `'F'`
and the initial state. -/
theorem interpStep_forward_fixed_step_witness :
    (dragonActions.lookup 'F' = some Action.Forward) ∧
    (interpStep dragonActions 1 initState 'F' =
      .ok { initState with
              position := (initState.position.1 + (get_vector initState.angle 10).1,
                           initState.position.2 + (get_vector initState.angle 10).2)
              path := initState.path ++ [PathCmd.lineBy (get_vector initState.angle 10)] } ∧
     get_vector initState.angle 10 =
       (truncTowardZero (10 * Real.cos initState.angle),
        truncTowardZero (10 * Real.sin initState.angle)) ∧
     ∀ x : ℝ, |(truncTowardZero x : ℝ)| ≤ |x|) :=
  ⟨by decide, interpStep_forward_fixed_step dragonActions 1 initState 'F' (by decide)⟩

/-- Action table for the push/pop round-trip scenario of the spec:
`A`, `B`, `C` draw forward, `[` pushes, `]` pops. -/
def roundTripActions : List (Char × Action) :=
  [('A', .Forward), ('B', .Forward), ('C', .Forward), ('[', .Push), (']', .Pop)]

theorem rtA : roundTripActions.lookup 'A' = some Action.Forward := rfl

theorem rtB : roundTripActions.lookup 'B' = some Action.Forward := rfl

theorem rtC : roundTripActions.lookup 'C' = some Action.Forward := rfl

theorem rtL : roundTripActions.lookup '[' = some Action.Push := rfl

theorem rtR : roundTripActions.lookup ']' = some Action.Pop := rfl

/-- C5: with `A`/`B`/`C` all `Forward` (the walk's fixed step length 10)
and zero angle delta, interpreting `"A[B]C"` ends at the same final
position as interpreting `"AC"`, and the emitted path of the bracketed walk
is the explicit list whose third element is the excursion's line segment
and whose fourth is the move-to back to `(10, 0)`, the position reached
before the `[`. -/
theorem push_pop_round_trip :
    ∃ t u : TurtleState,
      interpret roundTripActions 0 initState ['A', '[', 'B', ']', 'C'] = .ok t ∧
      interpret roundTripActions 0 initState ['A', 'C'] = .ok u ∧
      t.position = u.position ∧
      t.path = [PathCmd.moveTo (0, 0), PathCmd.lineBy (10, 0), PathCmd.lineBy (10, 0),
                PathCmd.moveTo (10, 0), PathCmd.lineBy (10, 0)] ∧
      u.path = [PathCmd.moveTo (0, 0), PathCmd.lineBy (10, 0), PathCmd.lineBy (10, 0)] := by
  refine ⟨{ angle := 0, position := (20, 0),
            path := [PathCmd.moveTo (0, 0), PathCmd.lineBy (10, 0), PathCmd.lineBy (10, 0),
                     PathCmd.moveTo (10, 0), PathCmd.lineBy (10, 0)], stack := [] },
          { angle := 0, position := (20, 0),
            path := [PathCmd.moveTo (0, 0), PathCmd.lineBy (10, 0), PathCmd.lineBy (10, 0)],
            stack := [] }, ?_, ?_, rfl, rfl, rfl⟩
  · simp only [interpret, interpStep, rtA, rtB, rtC, rtL, rtR, initState, get_vector_zero]
    norm_num
  · simp only [interpret, interpStep, rtA, rtC, initState, get_vector_zero]
    norm_num

/-- Action table for the truncation scenario: `+` turns, `F` draws. -/
def hexActions : List (Char × Action) :=
  [('+', .IncrementAngle), ('F', .Forward)]

theorem hxP : hexActions.lookup '+' = some Action.IncrementAngle := rfl

theorem hxF : hexActions.lookup 'F' = some Action.Forward := rfl

/-- At heading `0 + π/3` the forward displacement is `(5, 8)`: the exact
values would be `(5, 5·√3)` and the second component is truncated. -/
theorem get_vector_pi_div_three : get_vector (0 + Real.pi / 3) 10 = (5, 8) := by
  unfold get_vector truncTowardZero
  rw [zero_add, Real.cos_pi_div_three, Real.sin_pi_div_three]
  have hsq : Real.sqrt 3 ^ 2 = 3 := Real.sq_sqrt (by norm_num)
  have hnn : (0 : ℝ) ≤ Real.sqrt 3 := Real.sqrt_nonneg 3
  have h1 : (8 : ℝ) ≤ 10 * (Real.sqrt 3 / 2) := by nlinarith
  have h2 : 10 * (Real.sqrt 3 / 2) < 9 := by nlinarith
  have hfl : ⌊(10 : ℝ) * (Real.sqrt 3 / 2)⌋ = 8 := by
    rw [Int.floor_eq_iff]
    constructor
    · exact_mod_cast h1
    · exact_mod_cast h2
  norm_num [hfl, le_trans (by norm_num : (0:ℝ) ≤ 8) h1]

/-- C6 counterexample: interpreting `"+F"` with angle delta `π/3` puts the
turtle at the integer position `(5, 8)`, but the claim's real-valued update
`old + (10·cos θ, 10·sin θ)` would put its second coordinate at
`0 + 10·sin(0 + π/3) = 5·√3 ≠ 8`: the position is not kept real-valued
internally — each component is truncated at the `Forward` step itself, not
at emission time. -/
theorem forward_position_not_real_valued :
    ∃ t : TurtleState,
      interpret hexActions (Real.pi / 3) initState ['+', 'F'] = .ok t ∧
      t.position = (5, 8) ∧
      ((t.position.2 : ℝ) ≠ 0 + 10 * Real.sin (0 + Real.pi / 3)) := by
  refine ⟨{ angle := 0 + Real.pi / 3, position := (5, 8),
            path := [PathCmd.moveTo (0, 0), PathCmd.lineBy (5, 8)], stack := [] },
          ?_, rfl, ?_⟩
  · simp only [interpret, interpStep, hxP, hxF, initState, get_vector_pi_div_three]
    norm_num
  · rw [zero_add, Real.sin_pi_div_three]
    have hsq : Real.sqrt 3 ^ 2 = 3 := Real.sq_sqrt (by norm_num)
    intro h
    rw [zero_add] at h
    nlinarith [h, hsq]

/-- C6 (amended): on a `Forward` action the displacement added to the
integer position, and the relative segment emitted for it, are one and the
same integer vector `get_vector angle 10`, obtained by truncating
`10·cos`/`10·sin` of the heading toward zero (floor for nonnegative values,
ceiling for negative ones — one consistent direction) at the step itself;
no real-valued position is carried to emission time. -/
theorem forward_truncates_per_step (actions : List (Char × Action)) (angle_delta : ℝ)
    (st : TurtleState) (c : Char) (h : actions.lookup c = some Action.Forward) :
    interpStep actions angle_delta st c =
      .ok { st with
              position := (st.position.1 + (get_vector st.angle 10).1,
                           st.position.2 + (get_vector st.angle 10).2)
              path := st.path ++ [PathCmd.lineBy (get_vector st.angle 10)] } ∧
    (∀ x : ℝ, 0 ≤ x → truncTowardZero x = ⌊x⌋) ∧
    (∀ x : ℝ, x < 0 → truncTowardZero x = ⌈x⌉) := by
  refine ⟨by simp only [interpStep, h], fun x hx => if_pos hx,
    fun x hx => if_neg (not_le.mpr hx)⟩

/-- Witness for the amended C6 at the `hexActions` table, the symbol `'F'`
and the initial state. -/
theorem forward_truncates_per_step_witness :
    (hexActions.lookup 'F' = some Action.Forward) ∧
    (interpStep hexActions 1 initState 'F' =
      .ok { initState with
              position := (initState.position.1 + (get_vector initState.angle 10).1,
                           initState.position.2 + (get_vector initState.angle 10).2)
              path := initState.path ++ [PathCmd.lineBy (get_vector initState.angle 10)] } ∧
     (∀ x : ℝ, 0 ≤ x → truncTowardZero x = ⌊x⌋) ∧
     (∀ x : ℝ, x < 0 → truncTowardZero x = ⌈x⌉)) :=
  ⟨by decide, forward_truncates_per_step hexActions 1 initState 'F' (by decide)⟩

end LSys
